import Mathlib

/-!
Verification of a byte-level BPE tokenizer.

Python strings are modelled as lists of unicode code points (`List Nat`),
byte strings as lists of byte values, and dictionaries as insertion-ordered
association lists.  Every definition below is a direct translation of the
corresponding function of the tokenizer module.
-/

namespace BPE

set_option maxRecDepth 100000

/-- A token: the code points of the Python string that represents it. -/
abbrev Tok : Type := List Nat

/-- The end-of-word marker, the four code points of the reserved string
appended to every segmented word. -/
def markerTok : Tok := [60, 47, 119, 62]

/-! ## Byte codec -/

/-- The three contiguous printable byte ranges used to seed the
byte-to-unicode construction. -/
def printableBases : List Nat :=
  List.range' 33 94 ++ List.range' 161 12 ++ List.range' 174 82

/-- The remaining bytes, appended in ascending order by the construction
loop. -/
def extraBytes : List Nat :=
  (List.range 256).filter (fun b => !(printableBases.contains b))

/-- The byte-to-symbol association table: the zip of the full byte list with
the symbol list, where the extra bytes receive code points 256, 257, ... -/
def byteTable : List (Nat × Nat) :=
  (printableBases ++ extraBytes).zip
    (printableBases ++ (List.range extraBytes.length).map (fun n => 256 + n))

/-- Byte to symbol. -/
def byteEncoder (b : Nat) : Nat := (byteTable.lookup b).getD 0

/-- The inverse association table, as built by the dictionary comprehension
swapping keys and values. -/
def invByteTable : List (Nat × Nat) := byteTable.map (fun p => (p.2, p.1))

/-- Symbol back to byte. -/
def byteDecoder (c : Nat) : Nat := (invByteTable.lookup c).getD 0

/-- Whether a symbol is a key of the symbol-to-byte dictionary. -/
def inByteDomain (c : Nat) : Bool := (invByteTable.lookup c).isSome

/-! ## UTF-8 -/

/-- UTF-8 encoding of one code point. -/
def utf8EncodeChar (c : Nat) : List Nat :=
  if c < 128 then [c]
  else if c < 2048 then [192 + c / 64, 128 + c % 64]
  else if c < 65536 then [224 + c / 4096, 128 + (c / 64) % 64, 128 + c % 64]
  else [240 + c / 262144, 128 + (c / 4096) % 64, 128 + (c / 64) % 64, 128 + c % 64]

/-- UTF-8 encoding of a string of code points. -/
def utf8Encode (text : List Nat) : List Nat := (text.map utf8EncodeChar).flatten

/-- A code point a Python string may hold and encode: in unicode range and
not a surrogate. -/
def ScalarValue (c : Nat) : Prop := c < 1114112 ∧ ¬ (55296 ≤ c ∧ c < 57344)

instance (c : Nat) : Decidable (ScalarValue c) := by
  unfold ScalarValue; infer_instance

/-- Whether a byte is a UTF-8 continuation byte. -/
def isCont (b : Nat) : Prop := 128 ≤ b ∧ b < 192

instance (b : Nat) : Decidable (isCont b) := by
  unfold isCont; infer_instance

/-- UTF-8 decoding with replacement-character substitution for invalid
sequences (maximal-subpart policy). -/
def utf8Decode : List Nat → List Nat
  | [] => []
  | b :: rest =>
    if b < 128 then b :: utf8Decode rest
    else if 194 ≤ b ∧ b ≤ 223 then
      match rest with
      | [] => [65533]
      | c1 :: rest1 =>
        if isCont c1 then ((b - 192) * 64 + (c1 - 128)) :: utf8Decode rest1
        else 65533 :: utf8Decode (c1 :: rest1)
    else if 224 ≤ b ∧ b ≤ 239 then
      match rest with
      | [] => [65533]
      | c1 :: rest1 =>
        if (if b = 224 then 160 ≤ c1 ∧ c1 ≤ 191
            else if b = 237 then 128 ≤ c1 ∧ c1 ≤ 159
            else isCont c1) then
          match rest1 with
          | [] => [65533]
          | c2 :: rest2 =>
            if isCont c2 then
              ((b - 224) * 4096 + (c1 - 128) * 64 + (c2 - 128)) :: utf8Decode rest2
            else 65533 :: utf8Decode (c2 :: rest2)
        else 65533 :: utf8Decode (c1 :: rest1)
    else if 240 ≤ b ∧ b ≤ 244 then
      match rest with
      | [] => [65533]
      | c1 :: rest1 =>
        if (if b = 240 then 144 ≤ c1 ∧ c1 ≤ 191
            else if b = 244 then 128 ≤ c1 ∧ c1 ≤ 143
            else isCont c1) then
          match rest1 with
          | [] => [65533]
          | c2 :: rest2 =>
            if isCont c2 then
              match rest2 with
              | [] => [65533]
              | c3 :: rest3 =>
                if isCont c3 then
                  ((b - 240) * 262144 + (c1 - 128) * 4096 + (c2 - 128) * 64
                    + (c3 - 128)) :: utf8Decode rest3
                else 65533 :: utf8Decode (c3 :: rest3)
            else 65533 :: utf8Decode (c2 :: rest2)
        else 65533 :: utf8Decode (c1 :: rest1)
    else 65533 :: utf8Decode rest

/-! ## Segmenter -/

/-- The code points the regular-expression whitespace class matches. -/
def isPySpace (c : Nat) : Bool :=
  [9, 10, 11, 12, 13, 28, 29, 30, 31, 32, 133, 160, 5760, 8192, 8193, 8194,
    8195, 8196, 8197, 8198, 8199, 8200, 8201, 8202, 8232, 8233, 8239, 8287,
    12288].contains c

/-- Split a symbol string into the maximal runs the whitespace-or-not
alternation yields, keeping both run kinds. -/
def segment : List Nat → List (List Nat)
  | [] => []
  | c :: cs =>
    match segment cs with
    | [] => [[c]]
    | [] :: ws => [c] :: [] :: ws
    | (d :: w) :: ws =>
      if isPySpace c = isPySpace d then (c :: d :: w) :: ws
      else [c] :: (d :: w) :: ws

/-! ## Merge engine -/

/-- One left-to-right non-overlapping pass replacing adjacent occurrences of
a pair by its concatenation. -/
def applyMerge (p : Tok × Tok) : List Tok → List Tok
  | [] => []
  | [a] => [a]
  | a :: b :: rest =>
    if a = p.1 ∧ b = p.2 then (p.1 ++ p.2) :: applyMerge p rest
    else a :: applyMerge p (b :: rest)

/-- The adjacent pairs of a word. -/
def pairsOf (w : List Tok) : List (Tok × Tok) := w.zip w.tail

/-- Rank of a pair in the merge table: the index of its first occurrence,
none when absent (membership test plus index lookup). -/
def rankOf (ms : List (Tok × Tok)) (p : Tok × Tok) : Option Nat :=
  match ms with
  | [] => none
  | q :: qs => if q = p then some 0 else (rankOf qs p).map (· + 1)

/-- The selection loop of the tokenizer: scan the word's pairs keeping the
pair of strictly smallest rank seen so far. -/
def selectGo (ms : List (Tok × Tok)) (best : Option (Nat × (Tok × Tok))) :
    List (Tok × Tok) → Option (Nat × (Tok × Tok))
  | [] => best
  | p :: rest =>
    match rankOf ms p with
    | none => selectGo ms best rest
    | some r =>
      match best with
      | none => selectGo ms (some (r, p)) rest
      | some (r0, p0) =>
        if r < r0 then selectGo ms (some (r, p)) rest
        else selectGo ms (some (r0, p0)) rest

/-- The pair the code selects for the next merge round. -/
def selectCode (ms : List (Tok × Tok)) (pairs : List (Tok × Tok)) :
    Option (Nat × (Tok × Tok)) :=
  selectGo ms none pairs

lemma rankOf_mem {ms : List (Tok × Tok)} {p : Tok × Tok} {r : Nat}
    (h : rankOf ms p = some r) : p ∈ ms := by
  induction ms generalizing r with
  | nil => simp [rankOf] at h
  | cons q qs ih =>
    by_cases hq : q = p
    · simp [hq]
    · simp only [rankOf, if_neg hq] at h
      rcases Option.map_eq_some'.mp h with ⟨r', hr', _⟩
      exact List.mem_cons_of_mem _ (ih hr')

lemma selectGo_some_mem {ms : List (Tok × Tok)} :
    ∀ (pairs : List (Tok × Tok)) (best : Option (Nat × (Tok × Tok)))
      (r : Nat) (p : Tok × Tok),
      selectGo ms best pairs = some (r, p) →
      p ∈ pairs ∨ best = some (r, p) := by
  intro pairs
  induction pairs with
  | nil => intro best r p h; right; simpa [selectGo] using h
  | cons q rest ih =>
    intro best r p h
    rw [selectGo] at h
    cases hq : rankOf ms q with
    | none =>
      simp only [hq] at h
      rcases ih best r p h with h' | h'
      · exact Or.inl (List.mem_cons_of_mem _ h')
      · exact Or.inr h'
    | some rq =>
      simp only [hq] at h
      cases best with
      | none =>
        rcases ih _ r p h with h' | h'
        · exact Or.inl (List.mem_cons_of_mem _ h')
        · simp only [Option.some.injEq, Prod.mk.injEq] at h'
          exact Or.inl (h'.2 ▸ List.mem_cons_self _ _)
      | some b0 =>
        rcases b0 with ⟨r0, p0⟩
        replace h : (if rq < r0 then selectGo ms (some (rq, q)) rest
            else selectGo ms (some (r0, p0)) rest) = some (r, p) := h
        by_cases hlt : rq < r0
        · rw [if_pos hlt] at h
          rcases ih _ r p h with h' | h'
          · exact Or.inl (List.mem_cons_of_mem _ h')
          · simp only [Option.some.injEq, Prod.mk.injEq] at h'
            exact Or.inl (h'.2 ▸ List.mem_cons_self _ _)
        · rw [if_neg hlt] at h
          rcases ih _ r p h with h' | h'
          · exact Or.inl (List.mem_cons_of_mem _ h')
          · exact Or.inr h'

lemma mem_pairsOf_split {w : List Tok} {p : Tok × Tok} (h : p ∈ pairsOf w) :
    ∃ u v, w = u ++ p.1 :: p.2 :: v := by
  induction w with
  | nil => simp [pairsOf] at h
  | cons a t ih =>
    cases t with
    | nil => simp [pairsOf] at h
    | cons b t' =>
      have : pairsOf (a :: b :: t') = (a, b) :: pairsOf (b :: t') := rfl
      rw [this] at h
      rcases List.mem_cons.mp h with h' | h'
      · subst h'; exact ⟨[], t', rfl⟩
      · rcases ih h' with ⟨u, v, huv⟩
        exact ⟨a :: u, v, by simp [huv]⟩

lemma applyMerge_length_le (p : Tok × Tok) :
    ∀ w : List Tok, (applyMerge p w).length ≤ w.length
  | [] => by simp [applyMerge]
  | [a] => by simp [applyMerge]
  | a :: b :: rest => by
    by_cases hab : a = p.1 ∧ b = p.2
    · have := applyMerge_length_le p rest
      simp only [applyMerge, if_pos hab, List.length_cons]
      omega
    · have := applyMerge_length_le p (b :: rest)
      simp only [List.length_cons] at this
      simp only [applyMerge, if_neg hab, List.length_cons]
      omega

lemma applyMerge_length_lt {p : Tok × Tok} {w : List Tok}
    (h : p ∈ pairsOf w) : (applyMerge p w).length < w.length := by
  rcases mem_pairsOf_split h with ⟨u, v, rfl⟩
  clear h
  induction u with
  | nil =>
    have h1 : applyMerge p (p.1 :: p.2 :: v) = (p.1 ++ p.2) :: applyMerge p v := by
      simp [applyMerge]
    rw [List.nil_append, h1]
    have := applyMerge_length_le p v
    simp only [List.length_cons]
    omega
  | cons a u' ih =>
    cases hM : u' ++ p.1 :: p.2 :: v with
    | nil => simp at hM
    | cons b t =>
      rw [List.cons_append, hM]
      by_cases hab : a = p.1 ∧ b = p.2
      · have h1 : applyMerge p (a :: b :: t) = (p.1 ++ p.2) :: applyMerge p t := by
          simp [applyMerge, hab.1, hab.2]
        rw [h1]
        have := applyMerge_length_le p t
        simp only [List.length_cons]
        omega
      · have h1 : applyMerge p (a :: b :: t) = a :: applyMerge p (b :: t) := by
          simp only [applyMerge, if_neg hab]
        rw [h1, ← hM]
        simp only [List.length_cons]
        omega

lemma selectCode_some_mem {ms : List (Tok × Tok)} {pairs : List (Tok × Tok)}
    {r : Nat} {p : Tok × Tok} (h : selectCode ms pairs = some (r, p)) :
    p ∈ pairs := by
  rcases selectGo_some_mem pairs none r p h with h' | h'
  · exact h'
  · simp at h'

/-- The merge loop of the tokenizer, with explicit fuel (the loop shortens
the word every round, so the word's length is enough fuel): while the word
is longer than one token, select the present pair of lowest rank and apply
it; stop when no pair of the word is in the merge table. -/
def tokenizeGo (ms : List (Tok × Tok)) : Nat → List Tok → List Tok
  | 0, w => w
  | fuel + 1, w =>
    if w.length ≤ 1 then w
    else
      match selectCode ms (pairsOf w) with
      | none => w
      | some rp => tokenizeGo ms fuel (applyMerge rp.2 w)

/-- The merge loop of the tokenizer. -/
def tokenizeLoop (ms : List (Tok × Tok)) (w : List Tok) : List Tok :=
  tokenizeGo ms w.length w

/-- The number of merge rounds the loop performs, with fuel. -/
def tokenizeRoundsGo (ms : List (Tok × Tok)) : Nat → List Tok → Nat
  | 0, _ => 0
  | fuel + 1, w =>
    if w.length ≤ 1 then 0
    else
      match selectCode ms (pairsOf w) with
      | none => 0
      | some rp => tokenizeRoundsGo ms fuel (applyMerge rp.2 w) + 1

/-- The number of merge rounds the loop performs. -/
def tokenizeRounds (ms : List (Tok × Tok)) (w : List Tok) : Nat :=
  tokenizeRoundsGo ms w.length w

lemma tokenizeGo_congr (ms : List (Tok × Tok)) :
    ∀ (n : Nat) (w : List Tok), w.length ≤ n →
      ∀ m, w.length ≤ m → tokenizeGo ms n w = tokenizeGo ms m w := by
  intro n
  induction n with
  | zero =>
    intro w hw m _
    have hwnil : w = [] := List.length_eq_zero.mp (Nat.le_zero.mp hw)
    subst hwnil
    cases m <;> simp [tokenizeGo]
  | succ n ih =>
    intro w hw m hm
    cases m with
    | zero =>
      have hwnil : w = [] := List.length_eq_zero.mp (Nat.le_zero.mp hm)
      subst hwnil
      simp [tokenizeGo]
    | succ m' =>
      rw [tokenizeGo, tokenizeGo]
      by_cases h1 : w.length ≤ 1
      · rw [if_pos h1, if_pos h1]
      · rw [if_neg h1, if_neg h1]
        cases hsel : selectCode ms (pairsOf w) with
        | none => rfl
        | some rp =>
          simp only []
          have hlt := applyMerge_length_lt (selectCode_some_mem hsel)
          exact ih (applyMerge rp.2 w) (Nat.le_of_lt_succ (lt_of_lt_of_le hlt hw))
            m' (Nat.le_of_lt_succ (lt_of_lt_of_le hlt hm))

lemma tokenizeRoundsGo_congr (ms : List (Tok × Tok)) :
    ∀ (n : Nat) (w : List Tok), w.length ≤ n →
      ∀ m, w.length ≤ m → tokenizeRoundsGo ms n w = tokenizeRoundsGo ms m w := by
  intro n
  induction n with
  | zero =>
    intro w hw m _
    have hwnil : w = [] := List.length_eq_zero.mp (Nat.le_zero.mp hw)
    subst hwnil
    cases m <;> simp [tokenizeRoundsGo]
  | succ n ih =>
    intro w hw m hm
    cases m with
    | zero =>
      have hwnil : w = [] := List.length_eq_zero.mp (Nat.le_zero.mp hm)
      subst hwnil
      simp [tokenizeRoundsGo]
    | succ m' =>
      rw [tokenizeRoundsGo, tokenizeRoundsGo]
      by_cases h1 : w.length ≤ 1
      · rw [if_pos h1, if_pos h1]
      · rw [if_neg h1, if_neg h1]
        cases hsel : selectCode ms (pairsOf w) with
        | none => rfl
        | some rp =>
          simp only []
          have hlt := applyMerge_length_lt (selectCode_some_mem hsel)
          rw [ih (applyMerge rp.2 w) (Nat.le_of_lt_succ (lt_of_lt_of_le hlt hw))
            m' (Nat.le_of_lt_succ (lt_of_lt_of_le hlt hm))]

/-- Tokenize one word: split into single symbols, append the end-of-word
marker, and run the merge loop. -/
def tokenizeWord (ms : List (Tok × Tok)) (chars : List Nat) : List Tok :=
  tokenizeLoop ms ((chars.map (fun c => [c])) ++ [markerTok])

/-! ## Codec state, encode, decode -/

/-- A tokenizer state: the vocabulary (position = id) and the ordered merge
table. -/
structure TokState where
  vocab : List Tok
  merges : List (Tok × Tok)

/-- Byte-encode a text: UTF-8 bytes, each mapped through the byte encoder. -/
def byteSymbols (text : List Nat) : List Nat :=
  (utf8Encode text).map byteEncoder

/-- The id of a token in the vocabulary list: its first position. -/
def idxOf (l : List Tok) (t : Tok) : Nat :=
  match l with
  | [] => 0
  | x :: xs => if x = t then 0 else idxOf xs t + 1

/-- Ids a single token contributes: its id when in the vocabulary, else the
ids of its individual symbols that are, skipping the rest. -/
def tokenIds (vocab : List Tok) (t : Tok) : List Nat :=
  if t ∈ vocab then [idxOf vocab t]
  else t.filterMap (fun c =>
    if ([c] : Tok) ∈ vocab then some (idxOf vocab ([c] : Tok)) else none)

/-- Encode a text to token ids. -/
def encode (s : TokState) (text : List Nat) : List Nat :=
  ((segment (byteSymbols text)).map
    (fun w => ((tokenizeWord s.merges w).map (tokenIds s.vocab)).flatten)).flatten

/-- Remove every occurrence of the marker, scanning left to right, with
explicit fuel (every step shortens the string, so its length is enough
fuel). -/
def stripMGo : Nat → List Nat → List Nat
  | 0, l => l
  | fuel + 1, l =>
    if markerTok.isPrefixOf l then stripMGo fuel (l.drop 4)
    else
      match l with
      | [] => []
      | c :: t => c :: stripMGo fuel t

/-- Remove every occurrence of the marker, scanning left to right. -/
def stripM (l : List Nat) : List Nat := stripMGo l.length l

lemma stripMGo_succ (fuel : Nat) (l : List Nat) :
    stripMGo (fuel + 1) l =
    if markerTok.isPrefixOf l then stripMGo fuel (l.drop 4)
    else
      match l with
      | [] => []
      | c :: t => c :: stripMGo fuel t := rfl

/-- Decode token ids to text: invert the vocabulary, skip unknown ids, join,
strip markers, and invert the byte codec; when a symbol is outside its
domain the raw symbol string is returned instead. -/
def decode (s : TokState) (ids : List Nat) : List Nat :=
  if (stripM ((ids.filterMap (fun tid => s.vocab.get? tid)).flatten)).all inByteDomain
  then utf8Decode ((stripM ((ids.filterMap (fun tid => s.vocab.get? tid)).flatten)).map byteDecoder)
  else stripM ((ids.filterMap (fun tid => s.vocab.get? tid)).flatten)

/-! ## Trainer -/

/-- Add to the count of a key in an insertion-ordered counter. -/
def counterAdd {K : Type} [DecidableEq K] (l : List (K × Nat)) (k : K)
    (n : Nat) : List (K × Nat) :=
  match l with
  | [] => [(k, n)]
  | (k', v) :: t =>
    if k' = k then (k', v + n) :: t else (k', v) :: counterAdd t k n

/-- Set the value of a key in an insertion-ordered dictionary. -/
def assocSet {K : Type} [DecidableEq K] (l : List (K × Nat)) (k : K)
    (n : Nat) : List (K × Nat) :=
  match l with
  | [] => [(k, n)]
  | (k', v) :: t =>
    if k' = k then (k', n) :: t else (k', v) :: assocSet t k n

/-- The word-frequency table built from a corpus. -/
def buildWF (texts : List (List Nat)) : List (List Tok × Nat) :=
  texts.foldl
    (fun wf text =>
      (segment (byteSymbols text)).foldl
        (fun wf w => counterAdd wf ((w.map (fun c => [c])) ++ [markerTok]) 1)
        wf)
    []

/-- Frequency-weighted counts of all adjacent pairs across the table. -/
def getStats (wf : List (List Tok × Nat)) : List ((Tok × Tok) × Nat) :=
  wf.foldl
    (fun acc wfreq =>
      (pairsOf wfreq.1).foldl (fun acc p => counterAdd acc p wfreq.2) acc)
    []

/-- First key of maximal value, scanning in insertion order. -/
def maxByValue {K : Type} (l : List (K × Nat)) : Option (K × Nat) :=
  match l with
  | [] => none
  | (k, v) :: t =>
    some (t.foldl (fun best kv => if kv.2 > best.2 then kv else best) (k, v))

/-- Apply one learned merge to every word of the table, rebuilding it with
dictionary assignment. -/
def mergeWF (p : Tok × Tok) (wf : List (List Tok × Nat)) :
    List (List Tok × Nat) :=
  wf.foldl (fun acc wfreq => assocSet acc (applyMerge p wfreq.1) wfreq.2) []

/-- Lexicographic comparison of tokens, matching string order. -/
def lexLe : Tok → Tok → Bool
  | [], _ => true
  | _ :: _, [] => false
  | c :: cs, d :: ds => if c < d then true else if d < c then false else lexLe cs ds

/-- Insert into a sorted list. -/
def insertSorted (x : Tok) : List Tok → List Tok
  | [] => [x]
  | y :: ys => if lexLe x y then x :: y :: ys else y :: insertSorted x ys

/-- Sort tokens in ascending string order. -/
def sortToks (l : List Tok) : List Tok := l.foldr insertSorted []

/-- The base vocabulary: the distinct symbols of the table, sorted. -/
def baseVocab (wf : List (List Tok × Nat)) : List Tok :=
  sortToks ((wf.map Prod.fst).flatten.dedup)

/-- The merge-learning loop: each round recounts pairs, stops when none
exist, else merges the most frequent pair, records it, and grows the
vocabulary when the concatenation is new. -/
def trainLoop : Nat → List (List Tok × Nat) → List Tok →
    List (Tok × Tok) → List Tok × List (Tok × Tok)
  | 0, _, vocab, merges => (vocab, merges)
  | fuel + 1, wf, vocab, merges =>
    match maxByValue (getStats wf) with
    | none => (vocab, merges)
    | some (bp, _) =>
      trainLoop fuel (mergeWF bp wf)
        (if bp.1 ++ bp.2 ∈ vocab then vocab else vocab ++ [bp.1 ++ bp.2])
        (merges ++ [bp])

/-- Train a tokenizer on a corpus with a target vocabulary size. -/
def train (texts : List (List Nat)) (targetSize : Nat) : TokState :=
  let wf := buildWF texts
  let v0 := baseVocab wf
  let r := trainLoop (targetSize - v0.length) wf v0 []
  ⟨r.1, r.2⟩

/-! ## Metrics -/

/-- The compression ratio of a list of texts. -/
def compressionRatioCalc (s : TokState) (texts : List (List Nat)) : ℚ :=
  let totalBytes := (texts.map (fun t => (utf8Encode t).length)).sum
  let totalTokens := (texts.map (fun t => (encode s t).length)).sum
  if totalTokens = 0 then 0 else (totalBytes : ℚ) / (totalTokens : ℚ)

/-! ## Properties of the byte codec -/

set_option maxRecDepth 10000 in
lemma byte_roundtrip : ∀ b : Nat, b < 256 →
    byteDecoder (byteEncoder b) = b ∧ inByteDomain (byteEncoder b) = true := by
  decide

/-! ## Properties of UTF-8 -/

lemma utf8EncodeChar_lt {c : Nat} (h : c < 1114112) :
    ∀ b ∈ utf8EncodeChar c, b < 256 := by
  intro b hb
  unfold utf8EncodeChar at hb
  split_ifs at hb with h1 h2 h3
  · simp only [List.mem_singleton] at hb; omega
  · simp only [List.mem_cons, List.not_mem_nil, or_false] at hb
    rcases hb with rfl | rfl <;> omega
  · simp only [List.mem_cons, List.not_mem_nil, or_false] at hb
    rcases hb with rfl | rfl | rfl <;> omega
  · simp only [List.mem_cons, List.not_mem_nil, or_false] at hb
    rcases hb with rfl | rfl | rfl | rfl <;> omega

set_option maxRecDepth 8000 in
lemma utf8Decode_encodeChar {c : Nat} (h : ScalarValue c) (rest : List Nat) :
    utf8Decode (utf8EncodeChar c ++ rest) = c :: utf8Decode rest := by
  obtain ⟨hlt, hsur⟩ := h
  by_cases h1 : c < 128
  · simp only [utf8EncodeChar, if_pos h1, List.cons_append, List.nil_append]
    rw [utf8Decode.eq_def]
    simp only []
    rw [if_pos h1]
  · by_cases h2 : c < 2048
    · simp only [utf8EncodeChar, if_neg h1, if_pos h2, List.cons_append,
        List.nil_append]
      rw [utf8Decode.eq_def]
      simp only []
      rw [if_neg (by omega), if_pos (by omega : 194 ≤ 192 + c / 64 ∧ 192 + c / 64 ≤ 223)]
      rw [if_pos (show isCont (128 + c % 64) from ⟨by omega, by omega⟩)]
      congr 1
      omega
    · by_cases h3 : c < 65536
      · simp only [utf8EncodeChar, if_neg h1, if_neg h2, if_pos h3,
          List.cons_append, List.nil_append]
        rw [utf8Decode.eq_def]
        simp only []
        rw [if_neg (by omega),
          if_neg (by omega : ¬ (194 ≤ 224 + c / 4096 ∧ 224 + c / 4096 ≤ 223)),
          if_pos (by omega : 224 ≤ 224 + c / 4096 ∧ 224 + c / 4096 ≤ 239)]
        by_cases hc : c < 4096
        · simp only [if_pos (by omega : 224 + c / 4096 = 224)]
          rw [if_pos (by omega : 160 ≤ 128 + c / 64 % 64 ∧ 128 + c / 64 % 64 ≤ 191)]
          rw [if_pos (show isCont (128 + c % 64) from ⟨by omega, by omega⟩)]
          congr 1
          omega
        · by_cases hd : 53248 ≤ c ∧ c < 57344
          · simp only [if_neg (by omega : ¬ 224 + c / 4096 = 224),
              if_pos (by omega : 224 + c / 4096 = 237)]
            rw [if_pos (by omega : 128 ≤ 128 + c / 64 % 64 ∧ 128 + c / 64 % 64 ≤ 159)]
            rw [if_pos (show isCont (128 + c % 64) from ⟨by omega, by omega⟩)]
            congr 1
            omega
          · simp only [if_neg (by omega : ¬ 224 + c / 4096 = 224),
              if_neg (by omega : ¬ 224 + c / 4096 = 237)]
            rw [if_pos (show isCont (128 + c / 64 % 64) from ⟨by omega, by omega⟩)]
            rw [if_pos (show isCont (128 + c % 64) from ⟨by omega, by omega⟩)]
            congr 1
            omega
      · simp only [utf8EncodeChar, if_neg h1, if_neg h2, if_neg h3,
          List.cons_append, List.nil_append]
        rw [utf8Decode.eq_def]
        simp only []
        rw [if_neg (by omega),
          if_neg (by omega : ¬ (194 ≤ 240 + c / 262144 ∧ 240 + c / 262144 ≤ 223)),
          if_neg (by omega : ¬ (224 ≤ 240 + c / 262144 ∧ 240 + c / 262144 ≤ 239)),
          if_pos (by omega : 240 ≤ 240 + c / 262144 ∧ 240 + c / 262144 ≤ 244)]
        by_cases hc : c < 262144
        · simp only [if_pos (by omega : 240 + c / 262144 = 240)]
          rw [if_pos (by omega : 144 ≤ 128 + c / 4096 % 64 ∧ 128 + c / 4096 % 64 ≤ 191)]
          rw [if_pos (show isCont (128 + c / 64 % 64) from ⟨by omega, by omega⟩)]
          rw [if_pos (show isCont (128 + c % 64) from ⟨by omega, by omega⟩)]
          congr 1
          omega
        · by_cases hd : 1048576 ≤ c
          · simp only [if_neg (by omega : ¬ 240 + c / 262144 = 240),
              if_pos (by omega : 240 + c / 262144 = 244)]
            rw [if_pos (by omega : 128 ≤ 128 + c / 4096 % 64 ∧ 128 + c / 4096 % 64 ≤ 143)]
            rw [if_pos (show isCont (128 + c / 64 % 64) from ⟨by omega, by omega⟩)]
            rw [if_pos (show isCont (128 + c % 64) from ⟨by omega, by omega⟩)]
            congr 1
            omega
          · simp only [if_neg (by omega : ¬ 240 + c / 262144 = 240),
              if_neg (by omega : ¬ 240 + c / 262144 = 244)]
            rw [if_pos (show isCont (128 + c / 4096 % 64) from ⟨by omega, by omega⟩)]
            rw [if_pos (show isCont (128 + c / 64 % 64) from ⟨by omega, by omega⟩)]
            rw [if_pos (show isCont (128 + c % 64) from ⟨by omega, by omega⟩)]
            congr 1
            omega

lemma utf8_roundtrip : ∀ text : List Nat, (∀ c ∈ text, ScalarValue c) →
    utf8Decode (utf8Encode text) = text := by
  intro text h
  induction text with
  | nil => rfl
  | cons c t ih =>
    have hc : ScalarValue c := h c (List.mem_cons_self _ _)
    have hstep := utf8Decode_encodeChar hc (utf8Encode t)
    simp only [utf8Encode, List.map_cons, List.flatten_cons] at *
    rw [hstep, ih (fun x hx => h x (List.mem_cons_of_mem _ hx))]

/-! ## Properties of the segmenter -/

lemma join_segment : ∀ s : List Nat, (segment s).flatten = s := by
  intro s
  induction s with
  | nil => rfl
  | cons c cs ih =>
    rw [segment]
    cases h : segment cs with
    | nil =>
      rw [h] at ih
      simp only [List.flatten_nil] at ih
      simp [← ih]
    | cons w ws =>
      rw [h] at ih
      cases w with
      | nil =>
        simp only [List.flatten_cons, List.nil_append] at ih
        show ([c] :: [] :: ws).flatten = c :: cs
        simp [List.flatten_cons, ih]
      | cons d w' =>
        show (if isPySpace c = isPySpace d then ((c :: d :: w') :: ws)
            else ([c] :: (d :: w') :: ws)).flatten = c :: cs
        by_cases hsp : isPySpace c = isPySpace d
        · rw [if_pos hsp]
          simp only [List.flatten_cons, List.cons_append] at ih ⊢
          rw [ih]
        · rw [if_neg hsp]
          simp only [List.flatten_cons, List.singleton_append, List.cons_append] at ih ⊢
          rw [ih]
          simp

lemma join_split {α : Type} : ∀ (ws : List (List α)) (w : List α), w ∈ ws →
    ∃ u v, ws.flatten = u ++ (w ++ v) := by
  intro ws
  induction ws with
  | nil => intro w h; simp at h
  | cons x t ih =>
    intro w h
    rcases List.mem_cons.mp h with rfl | h'
    · exact ⟨[], t.flatten, by simp⟩
    · rcases ih w h' with ⟨u, v, huv⟩
      exact ⟨x ++ u, v, by simp [huv]⟩

/-! ## Occurrences of the marker, and marker stripping -/

/-- Whether the marker occurs as a contiguous substring. -/
def containsMarker : List Nat → Bool
  | [] => false
  | c :: t => markerTok.isPrefixOf (c :: t) || containsMarker t

lemma containsMarker_append_right {s : List Nat} (v : List Nat)
    (h : containsMarker s = true) : containsMarker (s ++ v) = true := by
  induction s with
  | nil => simp [containsMarker] at h
  | cons c t ih =>
    rw [containsMarker, Bool.or_eq_true] at h
    rw [List.cons_append, containsMarker, Bool.or_eq_true]
    rcases h with h | h
    · left
      have hp := (List.isPrefixOf_iff_prefix).mp h
      exact (List.isPrefixOf_iff_prefix).mpr
        (hp.trans (by rw [← List.cons_append]; exact List.prefix_append _ _))
    · exact Or.inr (ih h)

lemma containsMarker_append_left (u : List Nat) {s : List Nat}
    (h : containsMarker s = true) : containsMarker (u ++ s) = true := by
  induction u with
  | nil => simpa
  | cons a u' ih =>
    cases hx : u' ++ s with
    | nil =>
      rw [hx] at ih
      simp [containsMarker] at ih
    | cons y t =>
      rw [List.cons_append, hx, containsMarker, ← hx, Bool.or_eq_true]
      exact Or.inr ih

lemma stripMGo_nil : ∀ fuel, stripMGo fuel [] = [] := by
  intro fuel
  cases fuel with
  | zero => rfl
  | succ n => rw [stripMGo_succ, if_neg (by decide)]

lemma stripMGo_congr : ∀ (n : Nat) (l : List Nat), l.length ≤ n →
    ∀ m, l.length ≤ m → stripMGo n l = stripMGo m l := by
  intro n
  induction n with
  | zero =>
    intro l hl m _
    have hnil : l = [] := List.length_eq_zero.mp (Nat.le_zero.mp hl)
    subst hnil
    rw [stripMGo_nil, stripMGo_nil]
  | succ n ih =>
    intro l hl m hm
    cases m with
    | zero =>
      have hnil : l = [] := List.length_eq_zero.mp (Nat.le_zero.mp hm)
      subst hnil
      rw [stripMGo_nil, stripMGo_nil]
    | succ m' =>
      rw [stripMGo_succ, stripMGo_succ]
      by_cases hp : markerTok.isPrefixOf l
      · rw [if_pos hp, if_pos hp]
        have h4 : 4 ≤ l.length := by
          have := ((List.isPrefixOf_iff_prefix).mp hp).length_le
          simpa [markerTok] using this
        apply ih
        · simp only [List.length_drop]; omega
        · simp only [List.length_drop]; omega
      · rw [if_neg hp, if_neg hp]
        cases l with
        | nil => rfl
        | cons c t =>
          have h1 : t.length ≤ n := Nat.le_of_succ_le_succ (by simpa using hl)
          have h2 : t.length ≤ m' := Nat.le_of_succ_le_succ (by simpa using hm)
          show c :: stripMGo n t = c :: stripMGo m' t
          rw [ih t h1 m' h2]

lemma stripM_nil : stripM [] = [] := rfl

lemma stripMGo_chunk : ∀ (s : List Nat), containsMarker s = false →
    ∀ (t : List Nat) (fuel : Nat), (s ++ (markerTok ++ t)).length ≤ fuel →
    stripMGo fuel (s ++ (markerTok ++ t)) = s ++ stripM t := by
  intro s
  induction s with
  | nil =>
    intro _ t fuel hfuel
    rw [List.nil_append]
    cases fuel with
    | zero => exfalso; simp [markerTok] at hfuel
    | succ f =>
      rw [stripMGo_succ,
        if_pos ((List.isPrefixOf_iff_prefix).mpr (List.prefix_append _ _))]
      rw [show (4 : Nat) = markerTok.length from rfl, List.drop_left,
        List.nil_append, stripM]
      apply stripMGo_congr
      · have hlen := hfuel
        simp only [List.length_append, markerTok, List.length_cons,
          List.length_nil] at hlen
        omega
      · exact le_rfl
  | cons c cs ih =>
    intro h t fuel hfuel
    rw [containsMarker, Bool.or_eq_false_iff] at h
    obtain ⟨h1, h2⟩ := h
    have hpre : ¬ (markerTok <+: ((c :: cs) ++ (markerTok ++ t))) := by
      intro hp
      have htake := List.prefix_iff_eq_take.mp hp
      cases cs with
      | nil => simp [markerTok, List.take] at htake
      | cons x cs1 =>
        cases cs1 with
        | nil => simp [markerTok, List.take] at htake
        | cons y cs2 =>
          cases cs2 with
          | nil => simp [markerTok, List.take] at htake
          | cons z cs3 =>
            simp only [markerTok, List.cons_append, List.length_cons,
              List.length_nil, List.take, List.cons.injEq] at htake
            obtain ⟨hc, hx, hy, hz, -⟩ := htake
            have hm : markerTok <+: (c :: x :: y :: z :: cs3) :=
              ⟨cs3, by simp [markerTok, ← hc, ← hx, ← hy, ← hz]⟩
            exact absurd ((List.isPrefixOf_iff_prefix).mpr hm) (by simp [h1])
    cases fuel with
    | zero => exfalso; simp at hfuel
    | succ f =>
      rw [stripMGo_succ,
        if_neg (fun hh => hpre ((List.isPrefixOf_iff_prefix).mp hh))]
      show c :: stripMGo f (cs ++ (markerTok ++ t)) = (c :: cs) ++ stripM t
      have hf : (cs ++ (markerTok ++ t)).length ≤ f := by
        have := hfuel
        simp only [List.cons_append, List.length_cons] at this
        omega
      rw [ih h2 t f hf, List.cons_append]

lemma stripM_chunk : ∀ (s : List Nat), containsMarker s = false →
    ∀ t, stripM (s ++ (markerTok ++ t)) = s ++ stripM t := by
  intro s hs t
  rw [stripM]
  exact stripMGo_chunk s hs t _ le_rfl

lemma stripM_marked_join : ∀ (ws : List (List Nat)),
    (∀ w ∈ ws, containsMarker w = false) →
    stripM ((ws.map (fun w => w ++ markerTok)).flatten) = ws.flatten := by
  intro ws h
  induction ws with
  | nil => exact stripM_nil
  | cons w t ih =>
    simp only [List.map_cons, List.flatten_cons]
    rw [List.append_assoc, stripM_chunk w (h w (List.mem_cons_self _ _)) _,
      ih (fun x hx => h x (List.mem_cons_of_mem _ hx))]

/-! ## Properties of the merge engine -/

lemma tokenizeLoop_eq (ms : List (Tok × Tok)) (w : List Tok) : tokenizeLoop ms w =
    if w.length ≤ 1 then w
    else match selectCode ms (pairsOf w) with
      | none => w
      | some rp => tokenizeLoop ms (applyMerge rp.2 w) := by
  rw [tokenizeLoop]
  cases hlen : w.length with
  | zero =>
    rw [if_pos (by omega : (0 : Nat) ≤ 1)]
    rfl
  | succ k =>
    rw [tokenizeGo, hlen]
    by_cases h1 : k + 1 ≤ 1
    · rw [if_pos h1, if_pos h1]
    · rw [if_neg h1, if_neg h1]
      cases hsel : selectCode ms (pairsOf w) with
      | none => rfl
      | some rp =>
        simp only []
        have hlt := applyMerge_length_lt (selectCode_some_mem hsel)
        rw [tokenizeLoop]
        exact tokenizeGo_congr ms k _ (by omega) _ le_rfl

lemma tokenizeRounds_eq (ms : List (Tok × Tok)) (w : List Tok) : tokenizeRounds ms w =
    if w.length ≤ 1 then 0
    else match selectCode ms (pairsOf w) with
      | none => 0
      | some rp => tokenizeRounds ms (applyMerge rp.2 w) + 1 := by
  rw [tokenizeRounds]
  cases hlen : w.length with
  | zero =>
    rw [if_pos (by omega : (0 : Nat) ≤ 1)]
    rfl
  | succ k =>
    rw [tokenizeRoundsGo, hlen]
    by_cases h1 : k + 1 ≤ 1
    · rw [if_pos h1, if_pos h1]
    · rw [if_neg h1, if_neg h1]
      cases hsel : selectCode ms (pairsOf w) with
      | none => rfl
      | some rp =>
        simp only []
        have hlt := applyMerge_length_lt (selectCode_some_mem hsel)
        rw [tokenizeRounds]
        rw [tokenizeRoundsGo_congr ms k _ (by omega) _ le_rfl]

lemma applyMerge_join (p : Tok × Tok) :
    ∀ w : List Tok, (applyMerge p w).flatten = w.flatten
  | [] => rfl
  | [a] => rfl
  | a :: b :: rest => by
    by_cases hab : a = p.1 ∧ b = p.2
    · have hr := applyMerge_join p rest
      simp only [applyMerge, if_pos hab, List.flatten_cons]
      rw [hr, hab.1, hab.2, List.append_assoc]
    · have hr := applyMerge_join p (b :: rest)
      simp only [applyMerge, if_neg hab, List.flatten_cons] at hr ⊢
      rw [hr]

lemma applyMerge_mem (p : Tok × Tok) :
    ∀ w t, t ∈ applyMerge p w → t ∈ w ∨ t = p.1 ++ p.2
  | [], t => by simp [applyMerge]
  | [a], t => by
    intro h
    simp only [applyMerge] at h
    exact Or.inl h
  | a :: b :: rest, t => by
    by_cases hab : a = p.1 ∧ b = p.2
    · intro h
      simp only [applyMerge, if_pos hab, List.mem_cons] at h
      rcases h with rfl | h
      · exact Or.inr rfl
      · rcases applyMerge_mem p rest t h with h' | h'
        · exact Or.inl (List.mem_cons_of_mem _ (List.mem_cons_of_mem _ h'))
        · exact Or.inr h'
    · intro h
      simp only [applyMerge, if_neg hab, List.mem_cons] at h
      rcases h with rfl | h
      · exact Or.inl (List.mem_cons_self _ _)
      · rcases applyMerge_mem p (b :: rest) t h with h' | h'
        · exact Or.inl (List.mem_cons_of_mem _ h')
        · exact Or.inr h'

lemma selectGo_some_rank {ms : List (Tok × Tok)} :
    ∀ (pairs : List (Tok × Tok)) (best : Option (Nat × (Tok × Tok)))
      (r : Nat) (p : Tok × Tok),
      (∀ x : Nat × (Tok × Tok), best = some x → rankOf ms x.2 = some x.1) →
      selectGo ms best pairs = some (r, p) → rankOf ms p = some r := by
  intro pairs
  induction pairs with
  | nil =>
    intro best r p hb h
    exact hb (r, p) (by simpa [selectGo] using h)
  | cons q rest ih =>
    intro best r p hb h
    rw [selectGo] at h
    cases hq : rankOf ms q with
    | none =>
      simp only [hq] at h
      exact ih best r p hb h
    | some rq =>
      simp only [hq] at h
      cases best with
      | none =>
        exact ih _ r p (fun x hx => by cases Option.some.inj hx; exact hq) h
      | some b0 =>
        rcases b0 with ⟨r0, p0⟩
        replace h : (if rq < r0 then selectGo ms (some (rq, q)) rest
            else selectGo ms (some (r0, p0)) rest) = some (r, p) := h
        by_cases hlt : rq < r0
        · rw [if_pos hlt] at h
          exact ih _ r p (fun x hx => by cases Option.some.inj hx; exact hq) h
        · rw [if_neg hlt] at h
          exact ih _ r p (fun x hx => by cases Option.some.inj hx; exact hb _ rfl) h

lemma selectCode_some_rank {ms pairs : List (Tok × Tok)} {r : Nat}
    {p : Tok × Tok} (h : selectCode ms pairs = some (r, p)) :
    rankOf ms p = some r :=
  selectGo_some_rank pairs none r p (fun x hx => by simp at hx) h

lemma tokenizeLoop_join_aux (ms : List (Tok × Tok)) :
    ∀ n (w : List Tok), w.length ≤ n →
      (tokenizeLoop ms w).flatten = w.flatten := by
  intro n
  induction n with
  | zero =>
    intro w hw
    rw [tokenizeLoop_eq, if_pos (by omega)]
  | succ n ih =>
    intro w hw
    rw [tokenizeLoop_eq]
    by_cases h1 : w.length ≤ 1
    · rw [if_pos h1]
    · rw [if_neg h1]
      cases hsel : selectCode ms (pairsOf w) with
      | none => simp
      | some rp =>
        simp only []
        have hlt := applyMerge_length_lt (selectCode_some_mem hsel)
        rw [ih (applyMerge rp.2 w) (by omega), applyMerge_join]

lemma tokenizeLoop_join (ms : List (Tok × Tok)) (w : List Tok) :
    (tokenizeLoop ms w).flatten = w.flatten :=
  tokenizeLoop_join_aux ms w.length w le_rfl

lemma tokenizeLoop_mem_aux (ms : List (Tok × Tok)) :
    ∀ n (w : List Tok), w.length ≤ n →
      ∀ t ∈ tokenizeLoop ms w, t ∈ w ∨ ∃ q ∈ ms, t = q.1 ++ q.2 := by
  intro n
  induction n with
  | zero =>
    intro w hw t ht
    rw [tokenizeLoop_eq, if_pos (by omega)] at ht
    exact Or.inl ht
  | succ n ih =>
    intro w hw t ht
    rw [tokenizeLoop_eq] at ht
    by_cases h1 : w.length ≤ 1
    · rw [if_pos h1] at ht
      exact Or.inl ht
    · rw [if_neg h1] at ht
      cases hsel : selectCode ms (pairsOf w) with
      | none =>
        simp only [hsel] at ht
        exact Or.inl ht
      | some rp =>
        rcases rp with ⟨r, p⟩
        simp only [hsel] at ht
        have hlt := applyMerge_length_lt (selectCode_some_mem hsel)
        rcases ih (applyMerge p w) (by omega) t ht with h' | h'
        · rcases applyMerge_mem p w t h' with h'' | h''
          · exact Or.inl h''
          · exact Or.inr ⟨p, rankOf_mem (selectCode_some_rank hsel), h''⟩
        · exact Or.inr h'

lemma tokenizeLoop_length_aux (ms : List (Tok × Tok)) :
    ∀ n (w : List Tok), w.length ≤ n →
      (tokenizeLoop ms w).length ≤ w.length ∧
      (tokenizeRounds ms w + 1 ≤ w.length ∨ tokenizeRounds ms w = 0) := by
  intro n
  induction n with
  | zero =>
    intro w hw
    rw [tokenizeLoop_eq, tokenizeRounds_eq, if_pos (by omega), if_pos (by omega)]
    exact ⟨le_rfl, Or.inr rfl⟩
  | succ n ih =>
    intro w hw
    rw [tokenizeLoop_eq, tokenizeRounds_eq]
    by_cases h1 : w.length ≤ 1
    · rw [if_pos h1, if_pos h1]
      exact ⟨le_rfl, Or.inr rfl⟩
    · rw [if_neg h1, if_neg h1]
      cases hsel : selectCode ms (pairsOf w) with
      | none => exact ⟨le_rfl, Or.inr rfl⟩
      | some rp =>
        simp only []
        have hlt := applyMerge_length_lt (selectCode_some_mem hsel)
        obtain ⟨ha, hb⟩ :=
          ih (applyMerge rp.2 w) (Nat.le_of_lt_succ (lt_of_lt_of_le hlt hw))
        refine ⟨le_trans ha (le_of_lt hlt), Or.inl ?_⟩
        rcases hb with hc | hc
        · exact le_trans (Nat.add_le_add_right hc 1) (Nat.succ_le_of_lt hlt)
        · rw [hc]
          exact Nat.succ_le_of_lt (Nat.lt_of_not_le h1)

/-! ## The specified merge engine -/

/-- Selection as the specification phrases it: the earliest entry of the
merge table that occurs among the word's adjacent pairs, with its rank. -/
def selectSpec : List (Tok × Tok) → List (Tok × Tok) → Option (Nat × (Tok × Tok))
  | [], _ => none
  | q :: qs, pairs =>
    if q ∈ pairs then some (0, q)
    else (selectSpec qs pairs).map (fun rp => (rp.1 + 1, rp.2))

lemma selectSpec_some_mem : ∀ {ms pairs : List (Tok × Tok)} {r : Nat}
    {p : Tok × Tok}, selectSpec ms pairs = some (r, p) → p ∈ pairs := by
  intro ms
  induction ms with
  | nil => intro pairs r p h; simp [selectSpec] at h
  | cons q qs ih =>
    intro pairs r p h
    rw [selectSpec] at h
    by_cases hq : q ∈ pairs
    · rw [if_pos hq] at h
      simp only [Option.some.injEq, Prod.mk.injEq] at h
      exact h.2 ▸ hq
    · rw [if_neg hq] at h
      rcases Option.map_eq_some'.mp h with ⟨⟨r', p'⟩, hr', heq⟩
      simp only [Prod.mk.injEq] at heq
      exact heq.2 ▸ ih hr'

/-- The merge loop as the specification phrases it. -/
def tokenizeLoopSpec (ms : List (Tok × Tok)) (w : List Tok) : List Tok :=
  if w.length ≤ 1 then w
  else
    match h : selectSpec ms (pairsOf w) with
    | none => w
    | some rp => tokenizeLoopSpec ms (applyMerge rp.2 w)
termination_by w.length
decreasing_by
  exact applyMerge_length_lt (selectSpec_some_mem h)

/-- Tokenization of one word as the specification phrases it. -/
def tokenizeWordSpec (ms : List (Tok × Tok)) (chars : List Nat) : List Tok :=
  tokenizeLoopSpec ms ((chars.map (fun c => [c])) ++ [markerTok])

lemma tokenizeLoopSpec_eq (ms : List (Tok × Tok)) (w : List Tok) :
    tokenizeLoopSpec ms w =
    if w.length ≤ 1 then w
    else match selectSpec ms (pairsOf w) with
      | none => w
      | some rp => tokenizeLoopSpec ms (applyMerge rp.2 w) := by
  rw [tokenizeLoopSpec]
  by_cases h1 : w.length ≤ 1
  · simp only [if_pos h1]
  · simp only [if_neg h1]
    cases hsel : selectSpec ms (pairsOf w) <;> simp

/-! ## The code selection equals the specified selection -/

lemma rankOf_get : ∀ {ms : List (Tok × Tok)} {p : Tok × Tok} {r : Nat},
    rankOf ms p = some r → ms.get? r = some p := by
  intro ms
  induction ms with
  | nil => intro p r h; simp [rankOf] at h
  | cons q qs ih =>
    intro p r h
    rw [rankOf] at h
    by_cases hq : q = p
    · rw [if_pos hq] at h
      cases Option.some.inj h
      simp [hq]
    · rw [if_neg hq] at h
      rcases Option.map_eq_some'.mp h with ⟨r', hr', rfl⟩
      simpa using ih hr'

lemma rankOf_none {ms : List (Tok × Tok)} {p : Tok × Tok} :
    rankOf ms p = none ↔ p ∉ ms := by
  induction ms with
  | nil => simp [rankOf]
  | cons q qs ih =>
    rw [rankOf]
    by_cases hq : q = p
    · simp [if_pos hq, hq]
    · simp only [if_neg hq, Option.map_eq_none', ih, List.mem_cons]
      constructor
      · intro hn hmem
        rcases hmem with rfl | hmem
        · exact hq rfl
        · exact hn hmem
      · intro hn hmem
        exact hn (Or.inr hmem)

lemma selectGo_some_isSome {ms : List (Tok × Tok)} :
    ∀ (pairs : List (Tok × Tok)) (x : Nat × (Tok × Tok)),
      selectGo ms (some x) pairs ≠ none := by
  intro pairs
  induction pairs with
  | nil => intro x h; simp [selectGo] at h
  | cons q rest ih =>
    intro x h
    rw [selectGo] at h
    cases hq : rankOf ms q with
    | none =>
      simp only [hq] at h
      exact ih x h
    | some rq =>
      simp only [hq] at h
      rcases x with ⟨r0, p0⟩
      replace h : (if rq < r0 then selectGo ms (some (rq, q)) rest
          else selectGo ms (some (r0, p0)) rest) = none := h
      by_cases hlt : rq < r0
      · rw [if_pos hlt] at h
        exact ih _ h
      · rw [if_neg hlt] at h
        exact ih _ h

lemma selectGo_none {ms : List (Tok × Tok)} :
    ∀ (pairs : List (Tok × Tok)) (best : Option (Nat × (Tok × Tok))),
      selectGo ms best pairs = none →
      ∀ q ∈ pairs, rankOf ms q = none := by
  intro pairs
  induction pairs with
  | nil => intro best _ q hq; simp at hq
  | cons q0 rest ih =>
    intro best h q hq
    rw [selectGo] at h
    cases hq0 : rankOf ms q0 with
    | none =>
      simp only [hq0] at h
      rcases List.mem_cons.mp hq with rfl | hq'
      · exact hq0
      · exact ih best h q hq'
    | some rq =>
      simp only [hq0] at h
      cases best with
      | none => exact absurd h (selectGo_some_isSome rest _)
      | some b0 =>
        rcases b0 with ⟨r0, p0⟩
        replace h : (if rq < r0 then selectGo ms (some (rq, q0)) rest
            else selectGo ms (some (r0, p0)) rest) = none := h
        by_cases hlt : rq < r0
        · rw [if_pos hlt] at h
          exact absurd h (selectGo_some_isSome rest _)
        · rw [if_neg hlt] at h
          exact absurd h (selectGo_some_isSome rest _)

lemma selectGo_min {ms : List (Tok × Tok)} :
    ∀ (pairs : List (Tok × Tok)) (best : Option (Nat × (Tok × Tok)))
      (r : Nat) (p : Tok × Tok),
      (∀ x : Nat × (Tok × Tok), best = some x → rankOf ms x.2 = some x.1) →
      selectGo ms best pairs = some (r, p) →
      (∀ q ∈ pairs, ∀ rq, rankOf ms q = some rq → r ≤ rq) ∧
      (∀ x : Nat × (Tok × Tok), best = some x → r ≤ x.1) := by
  intro pairs
  induction pairs with
  | nil =>
    intro best r p hb h
    replace h : best = some (r, p) := by simpa [selectGo] using h
    constructor
    · intro q hq; simp at hq
    · intro x hx
      rw [h] at hx
      cases Option.some.inj hx
      exact le_rfl
  | cons q0 rest ih =>
    intro best r p hb h
    rw [selectGo] at h
    cases hq0 : rankOf ms q0 with
    | none =>
      simp only [hq0] at h
      obtain ⟨hmin, hbest⟩ := ih best r p hb h
      constructor
      · intro q hq rq hrq
        rcases List.mem_cons.mp hq with rfl | hq'
        · rw [hq0] at hrq; exact absurd hrq (by simp)
        · exact hmin q hq' rq hrq
      · exact hbest
    | some rq0 =>
      simp only [hq0] at h
      cases best with
      | none =>
        obtain ⟨hmin, hbest⟩ := ih _ r p
          (fun x hx => by cases Option.some.inj hx; exact hq0) h
        have hrq0 : r ≤ rq0 := hbest (rq0, q0) rfl
        constructor
        · intro q hq rq hrq
          rcases List.mem_cons.mp hq with rfl | hq'
          · rw [hq0] at hrq
            cases Option.some.inj hrq
            exact hrq0
          · exact hmin q hq' rq hrq
        · intro x hx; simp at hx
      | some b0 =>
        rcases b0 with ⟨r0, p0⟩
        replace h : (if rq0 < r0 then selectGo ms (some (rq0, q0)) rest
            else selectGo ms (some (r0, p0)) rest) = some (r, p) := h
        by_cases hlt : rq0 < r0
        · rw [if_pos hlt] at h
          obtain ⟨hmin, hbest⟩ := ih _ r p
            (fun x hx => by cases Option.some.inj hx; exact hq0) h
          have hrq0 : r ≤ rq0 := hbest (rq0, q0) rfl
          constructor
          · intro q hq rq hrq
            rcases List.mem_cons.mp hq with rfl | hq'
            · rw [hq0] at hrq
              cases Option.some.inj hrq
              exact hrq0
            · exact hmin q hq' rq hrq
          · intro x hx
            cases Option.some.inj hx
            exact le_trans hrq0 (le_of_lt hlt)
        · rw [if_neg hlt] at h
          obtain ⟨hmin, hbest⟩ := ih _ r p
            (fun x hx => by cases Option.some.inj hx; exact hb _ rfl) h
          have hr0 : r ≤ r0 := hbest (r0, p0) rfl
          constructor
          · intro q hq rq hrq
            rcases List.mem_cons.mp hq with rfl | hq'
            · rw [hq0] at hrq
              cases Option.some.inj hrq
              exact le_trans hr0 (Nat.le_of_not_lt hlt)
            · exact hmin q hq' rq hrq
          · intro x hx
            cases Option.some.inj hx
            exact hr0

lemma selectSpec_none : ∀ {ms pairs : List (Tok × Tok)},
    selectSpec ms pairs = none → ∀ p ∈ pairs, p ∉ ms := by
  intro ms
  induction ms with
  | nil => intro pairs _ p _; simp
  | cons q qs ih =>
    intro pairs h p hp
    rw [selectSpec] at h
    by_cases hq : q ∈ pairs
    · rw [if_pos hq] at h; exact absurd h (by simp)
    · rw [if_neg hq] at h
      rw [Option.map_eq_none'] at h
      intro hmem
      rcases List.mem_cons.mp hmem with rfl | hmem'
      · exact hq hp
      · exact ih h p hp hmem'

lemma selectSpec_char : ∀ {ms pairs : List (Tok × Tok)} {r : Nat}
    {p : Tok × Tok}, selectSpec ms pairs = some (r, p) →
    rankOf ms p = some r ∧
    (∀ q ∈ pairs, ∀ rq, rankOf ms q = some rq → r ≤ rq) := by
  intro ms
  induction ms with
  | nil => intro pairs r p h; simp [selectSpec] at h
  | cons q0 qs ih =>
    intro pairs r p h
    rw [selectSpec] at h
    by_cases hq : q0 ∈ pairs
    · rw [if_pos hq] at h
      obtain ⟨h1, h2⟩ : (0 : Nat) = r ∧ q0 = p := by simpa using h
      subst h1; subst h2
      constructor
      · rw [rankOf, if_pos rfl]
      · intro q' hq' rq hrq; exact Nat.zero_le _
    · rw [if_neg hq] at h
      rcases Option.map_eq_some'.mp h with ⟨⟨r', p'⟩, hr', heq⟩
      obtain ⟨h1, h2⟩ : r' + 1 = r ∧ p' = p := by simpa using heq
      subst h1; subst h2
      obtain ⟨ha, hmin⟩ := ih hr'
      have hne : q0 ≠ p' := fun e => hq (e ▸ selectSpec_some_mem hr')
      constructor
      · rw [rankOf, if_neg hne, ha]; rfl
      · intro q' hq' rq hrq
        rw [rankOf, if_neg (fun e => hq (by rw [e]; exact hq'))] at hrq
        rcases Option.map_eq_some'.mp hrq with ⟨rq', hrq', heq2⟩
        have := hmin q' hq' rq' hrq'
        omega

lemma selectCode_eq_selectSpec (ms pairs : List (Tok × Tok)) :
    selectCode ms pairs = selectSpec ms pairs := by
  cases hs : selectSpec ms pairs with
  | none =>
    cases hc : selectCode ms pairs with
    | none => rfl
    | some rp =>
      rcases rp with ⟨r, p⟩
      have hmem := selectCode_some_mem hc
      have hrank := selectCode_some_rank hc
      exact absurd (rankOf_mem hrank) (selectSpec_none hs p hmem)
  | some rp =>
    rcases rp with ⟨r, p⟩
    obtain ⟨hrank, hmin⟩ := selectSpec_char hs
    have hmem := selectSpec_some_mem hs
    cases hc : selectCode ms pairs with
    | none =>
      have := selectGo_none pairs none hc p hmem
      rw [hrank] at this
      exact absurd this (by simp)
    | some rp' =>
      rcases rp' with ⟨r', p'⟩
      have hrank' := selectCode_some_rank hc
      have hmem' := selectCode_some_mem hc
      obtain ⟨hmin', -⟩ := selectGo_min pairs none r' p' (fun x hx => by simp at hx) hc
      have h1 : r' ≤ r := hmin' p hmem r hrank
      have h2 : r ≤ r' := hmin p' hmem' r' hrank'
      have hre : r = r' := le_antisymm h2 h1
      subst hre
      have hg1 := rankOf_get hrank
      have hg2 := rankOf_get hrank'
      rw [hg1] at hg2
      cases Option.some.inj hg2
      rfl

lemma tokenizeLoop_eq_spec_aux (ms : List (Tok × Tok)) :
    ∀ n (w : List Tok), w.length ≤ n →
      tokenizeLoop ms w = tokenizeLoopSpec ms w := by
  intro n
  induction n with
  | zero =>
    intro w hw
    rw [tokenizeLoop_eq, tokenizeLoopSpec_eq, if_pos (by omega), if_pos (by omega)]
  | succ n ih =>
    intro w hw
    rw [tokenizeLoop_eq, tokenizeLoopSpec_eq]
    by_cases h1 : w.length ≤ 1
    · rw [if_pos h1, if_pos h1]
    · rw [if_neg h1, if_neg h1, selectCode_eq_selectSpec]
      cases hsel : selectSpec ms (pairsOf w) with
      | none => rfl
      | some rp =>
        simp only []
        have hlt := applyMerge_length_lt (selectSpec_some_mem hsel)
        exact ih (applyMerge rp.2 w) (Nat.le_of_lt_succ (lt_of_lt_of_le hlt hw))

/-! ## Round-trip machinery -/

lemma flatten_map_singleton : ∀ w : List Nat,
    (w.map (fun c => ([c] : Tok))).flatten = w := by
  intro w
  induction w with
  | nil => rfl
  | cons c t ih => simp [ih]

lemma filterMap_all_some {α : Type} (f : α → Option α) :
    ∀ l : List α, (∀ a ∈ l, f a = some a) → l.filterMap f = l := by
  intro l h
  induction l with
  | nil => rfl
  | cons a t ih =>
    rw [List.filterMap_cons, h a (List.mem_cons_self _ _),
      ih (fun x hx => h x (List.mem_cons_of_mem _ hx))]

lemma idxOf_lt : ∀ {l : List Tok} {t : Tok}, t ∈ l → idxOf l t < l.length := by
  intro l
  induction l with
  | nil => intro t h; simp at h
  | cons x xs ih =>
    intro t h
    rw [idxOf]
    by_cases hx : x = t
    · rw [if_pos hx]; simp
    · rw [if_neg hx]
      have : t ∈ xs := by
        rcases List.mem_cons.mp h with rfl | h'
        · exact absurd rfl hx
        · exact h'
      simpa using ih this

lemma get?_idxOf : ∀ {l : List Tok} {t : Tok}, t ∈ l →
    l.get? (idxOf l t) = some t := by
  intro l
  induction l with
  | nil => intro t h; simp at h
  | cons x xs ih =>
    intro t h
    rw [idxOf]
    by_cases hx : x = t
    · rw [if_pos hx]; simp [hx]
    · rw [if_neg hx]
      have : t ∈ xs := by
        rcases List.mem_cons.mp h with rfl | h'
        · exact absurd rfl hx
        · exact h'
      simpa using ih this

lemma tokenIds_flatten {vocab : List Tok} :
    ∀ toks : List Tok, (∀ t ∈ toks, t ∈ vocab) →
      (toks.map (tokenIds vocab)).flatten =
        toks.map (fun t => idxOf vocab t) := by
  intro toks h
  induction toks with
  | nil => rfl
  | cons t ts ih =>
    rw [List.map_cons, List.map_cons, List.flatten_cons,
      ih (fun x hx => h x (List.mem_cons_of_mem _ hx))]
    rw [tokenIds, if_pos (h t (List.mem_cons_self _ _))]
    rfl

lemma tokenIds_lt {vocab : List Tok} {t : Tok} {i : Nat}
    (h : i ∈ tokenIds vocab t) : i < vocab.length := by
  rw [tokenIds] at h
  by_cases ht : t ∈ vocab
  · rw [if_pos ht] at h
    rw [List.mem_singleton] at h
    exact h ▸ idxOf_lt ht
  · rw [if_neg ht] at h
    rcases List.mem_filterMap.mp h with ⟨c, -, hc⟩
    by_cases hcv : ([c] : Tok) ∈ vocab
    · rw [if_pos hcv] at hc
      cases Option.some.inj hc
      exact idxOf_lt hcv
    · rw [if_neg hcv] at hc
      exact absurd hc (by simp)

/-- C1 (amended): for every tokenizer state whose vocabulary contains the
end-of-word marker, every base symbol of the text and the concatenation of
every merge-table pair, decoding the encoding returns the text — provided
the byte-encoded text does not contain the four-symbol marker string as a
contiguous substring.  (The code strips every occurrence of the marker
string during decoding, so a text whose own bytes spell the marker is not
recovered; see the counterexample.) -/
theorem c1_round_trip_amended (s : TokState) (text : List Nat)
    (hscal : ∀ c ∈ text, ScalarValue c)
    (hm : markerTok ∈ s.vocab)
    (hclo : ∀ q ∈ s.merges, q.1 ++ q.2 ∈ s.vocab)
    (hsym : ∀ c ∈ byteSymbols text, ([c] : Tok) ∈ s.vocab)
    (hnomark : containsMarker (byteSymbols text) = false) :
    decode s (encode s text) = text := by
  have hjoin : (segment (byteSymbols text)).flatten = byteSymbols text :=
    join_segment _
  have hwmem : ∀ w ∈ segment (byteSymbols text), ∀ c ∈ w,
      c ∈ byteSymbols text := by
    intro w hw c hc
    rw [← hjoin]
    exact List.mem_flatten.mpr ⟨w, hw, hc⟩
  have htoksmem : ∀ w ∈ segment (byteSymbols text),
      ∀ t ∈ tokenizeWord s.merges w, t ∈ s.vocab := by
    intro w hw t ht
    rcases tokenizeLoop_mem_aux s.merges _ _ le_rfl t ht with h' | ⟨q, hq, rfl⟩
    · rcases List.mem_append.mp h' with h'' | h''
      · rcases List.mem_map.mp h'' with ⟨c, hc, rfl⟩
        exact hsym c (hwmem w hw c hc)
      · rw [List.mem_singleton] at h''
        exact h'' ▸ hm
    · exact hclo q hq
  have hids : encode s text =
      ((segment (byteSymbols text)).map
        (fun w => (tokenizeWord s.merges w).map
          (fun t => idxOf s.vocab t))).flatten := by
    rw [encode]
    congr 1
    exact List.map_congr_left (fun w hw => tokenIds_flatten _ (htoksmem w hw))
  have htoks : (encode s text).filterMap (fun tid => s.vocab.get? tid) =
      ((segment (byteSymbols text)).map
        (fun w => tokenizeWord s.merges w)).flatten := by
    rw [hids, List.filterMap_flatten, List.map_map]
    congr 1
    apply List.map_congr_left
    intro w hw
    show ((tokenizeWord s.merges w).map
        (fun t => idxOf s.vocab t)).filterMap (fun tid => s.vocab.get? tid) =
      tokenizeWord s.merges w
    rw [List.filterMap_map]
    exact filterMap_all_some _ _
      (fun t ht => get?_idxOf (htoksmem w hw t ht))
  have hflat : (((segment (byteSymbols text)).map
      (fun w => tokenizeWord s.merges w)).flatten).flatten =
      ((segment (byteSymbols text)).map
        (fun w => w ++ markerTok)).flatten := by
    rw [List.flatten_flatten, List.map_map]
    congr 1
    apply List.map_congr_left
    intro w hw
    show (tokenizeWord s.merges w).flatten = w ++ markerTok
    rw [tokenizeWord, tokenizeLoop_join, List.flatten_append,
      flatten_map_singleton]
    simp
  have hwnomark : ∀ w ∈ segment (byteSymbols text),
      containsMarker w = false := by
    intro w hw
    by_contra hcm
    rw [Bool.not_eq_false] at hcm
    rcases join_split (segment (byteSymbols text)) w hw with ⟨u, v, huv⟩
    have hcontra : containsMarker ((segment (byteSymbols text)).flatten) = true := by
      rw [huv]
      exact containsMarker_append_left u (containsMarker_append_right v hcm)
    rw [hjoin, hnomark] at hcontra
    exact Bool.false_ne_true hcontra
  have hbytes : ∀ b ∈ utf8Encode text, b < 256 := by
    intro b hb
    rw [utf8Encode] at hb
    rcases List.mem_flatten.mp hb with ⟨l, hl, hbl⟩
    rcases List.mem_map.mp hl with ⟨c, hc, rfl⟩
    exact utf8EncodeChar_lt (hscal c hc).1 b hbl
  have hstrip : stripM (((encode s text).filterMap
      (fun tid => s.vocab.get? tid)).flatten) = byteSymbols text := by
    rw [htoks, hflat, stripM_marked_join _ hwnomark, hjoin]
  have hdom : (byteSymbols text).all inByteDomain = true := by
    rw [List.all_eq_true]
    intro c hc
    rcases List.mem_map.mp hc with ⟨b, hb, rfl⟩
    exact (byte_roundtrip b (hbytes b hb)).2
  have hdec : (byteSymbols text).map byteDecoder = utf8Encode text := by
    rw [byteSymbols, List.map_map]
    have hmapc : List.map (byteDecoder ∘ byteEncoder) (utf8Encode text) =
        List.map id (utf8Encode text) :=
      List.map_congr_left (fun b hb => (byte_roundtrip b (hbytes b hb)).1)
    rw [hmapc, List.map_id]
  rw [decode, hstrip, if_pos hdom, hdec]
  exact utf8_roundtrip text hscal

/-! ## Properties of the trainer -/

lemma maxByValue_eq_none {K : Type} {l : List (K × Nat)} :
    maxByValue l = none ↔ l = [] := by
  cases l <;> simp [maxByValue]

lemma trainLoop_merges_mono : ∀ (fuel : Nat) (wf : List (List Tok × Nat))
    (v : List Tok) (ms : List (Tok × Tok)),
    ms.length ≤ (trainLoop fuel wf v ms).2.length := by
  intro fuel
  induction fuel with
  | zero => intro wf v ms; exact le_rfl
  | succ n ih =>
    intro wf v ms
    rw [trainLoop]
    cases hm : maxByValue (getStats wf) with
    | none => exact le_rfl
    | some bv =>
      rcases bv with ⟨bp, cnt⟩
      simp only []
      have h := ih (mergeWF bp wf)
        (if bp.1 ++ bp.2 ∈ v then v else v ++ [bp.1 ++ bp.2]) (ms ++ [bp])
      have hms : (ms ++ [bp]).length = ms.length + 1 := by simp
      omega

lemma trainLoop_bounds : ∀ (fuel : Nat) (wf : List (List Tok × Nat))
    (v : List Tok) (ms : List (Tok × Tok)),
    (trainLoop fuel wf v ms).1.length + ms.length ≤
      v.length + (trainLoop fuel wf v ms).2.length ∧
    (trainLoop fuel wf v ms).2.length ≤ ms.length + fuel := by
  intro fuel
  induction fuel with
  | zero => intro wf v ms; exact ⟨le_rfl, Nat.le_add_right _ _⟩
  | succ n ih =>
    intro wf v ms
    rw [trainLoop]
    cases hm : maxByValue (getStats wf) with
    | none => exact ⟨le_rfl, Nat.le_add_right _ _⟩
    | some bv =>
      rcases bv with ⟨bp, cnt⟩
      simp only []
      obtain ⟨h1, h2⟩ := ih (mergeWF bp wf)
        (if bp.1 ++ bp.2 ∈ v then v else v ++ [bp.1 ++ bp.2]) (ms ++ [bp])
      have hms : (ms ++ [bp]).length = ms.length + 1 := by simp
      have hv : (if bp.1 ++ bp.2 ∈ v
          then v else v ++ [bp.1 ++ bp.2]).length ≤ v.length + 1 := by
        by_cases hin : bp.1 ++ bp.2 ∈ v
        · rw [if_pos hin]; omega
        · rw [if_neg hin]; simp
      exact ⟨by omega, by omega⟩

lemma trainLoop_progress (fuel : Nat) (wf : List (List Tok × Nat))
    (v : List Tok) (ms : List (Tok × Tok)) (hf : 0 < fuel)
    (hp : getStats wf ≠ []) :
    ms.length + 1 ≤ (trainLoop fuel wf v ms).2.length := by
  cases fuel with
  | zero => exact absurd hf (by omega)
  | succ n =>
    rw [trainLoop]
    cases hm : maxByValue (getStats wf) with
    | none => exact absurd (maxByValue_eq_none.mp hm) hp
    | some bv =>
      rcases bv with ⟨bp, cnt⟩
      simp only []
      have h := trainLoop_merges_mono n (mergeWF bp wf)
        (if bp.1 ++ bp.2 ∈ v then v else v ++ [bp.1 ++ bp.2]) (ms ++ [bp])
      have hms : (ms ++ [bp]).length = ms.length + 1 := by simp
      omega

lemma byte_seq_roundtrip : ∀ bs : List Nat, (∀ b ∈ bs, b < 256) →
    (bs.map byteEncoder).map byteDecoder = bs := by
  intro bs
  induction bs with
  | nil => intro _; rfl
  | cons x t ih =>
    intro h
    simp only [List.map_cons]
    rw [(byte_roundtrip x (h x (List.mem_cons_self _ _))).1,
      ih (fun y hy => h y (List.mem_cons_of_mem _ hy))]

/-! ## The claims -/

/-- C6: the byte encoder is a bijection from the 256 byte values onto 256
distinct symbols — it is injective on bytes below 256 and its images over
the whole range are pairwise distinct — and mapping a byte sequence
through the encoder and then the inverse decoder returns the original
sequence. -/
theorem c6_byte_codec_bijection (bs : List Nat) (hbs : ∀ b ∈ bs, b < 256)
    (b b' : Nat) (hb : b < 256) (hb' : b' < 256)
    (he : byteEncoder b = byteEncoder b') :
    (bs.map byteEncoder).map byteDecoder = bs ∧ b = b' ∧
    ((List.range 256).map byteEncoder).Nodup := by
  refine ⟨byte_seq_roundtrip bs hbs, ?_, ?_⟩
  · have h1 := (byte_roundtrip b hb).1
    have h2 := (byte_roundtrip b' hb').1
    rw [← h1, ← h2, he]
  · apply List.Nodup.map_on
    · intro x hx y hy hxy
      have hx' := List.mem_range.mp hx
      have hy' := List.mem_range.mp hy
      rw [← (byte_roundtrip x hx').1, ← (byte_roundtrip y hy').1, hxy]
    · exact List.nodup_range 256

/-- Witness for C6 at a concrete byte sequence and byte pair. -/
theorem c6_byte_codec_bijection_witness :
    (([104, 32, 0, 255].map byteEncoder).map byteDecoder = [104, 32, 0, 255]) ∧
    (97 : Nat) = 97 ∧ ((List.range 256).map byteEncoder).Nodup :=
  c6_byte_codec_bijection [104, 32, 0, 255] (by decide) 97 97 (by decide)
    (by decide) rfl

/-- C3: tokenizing a word is priority-ordered merging: the loop repeatedly
merges, among the adjacent pairs present in the word, the pair of lowest
merge-table rank — equivalently the earliest merge-table entry that occurs
anywhere in the word, so an earlier-learned merge wins over a later-learned
one at an earlier position — replacing all its non-overlapping occurrences
in one left-to-right pass, and stops when the word has length one or none
of its adjacent pairs is in the table. -/
theorem c3_tokenize_word_priority (ms : List (Tok × Tok)) (chars : List Nat) :
    tokenizeWord ms chars = tokenizeWordSpec ms chars := by
  rw [tokenizeWord, tokenizeWordSpec]
  exact tokenizeLoop_eq_spec_aux ms
    ((chars.map (fun c => [c])) ++ [markerTok]).length _ le_rfl

/-- C7: applying the merge engine never increases a word's length, and the
merge loop performs at most length minus one rounds. -/
theorem c7_merge_monotone_bounded (ms : List (Tok × Tok)) (w : List Tok) :
    (tokenizeLoop ms w).length ≤ w.length ∧
    tokenizeRounds ms w ≤ w.length - 1 := by
  obtain ⟨h1, h2⟩ := tokenizeLoop_length_aux ms w.length w le_rfl
  refine ⟨h1, ?_⟩
  rcases h2 with h | h
  · exact Nat.le_pred_of_lt h
  · rw [h]
    exact Nat.zero_le _

/-- C2 counterexample: training on the single text "ab" with target size 4
records the merge of a with b although that pair's aggregate frequency at
selection time was 1, so the loop does not stop when no pair has frequency
at least 2. -/
theorem c2_counterexample :
    (train [[97, 98]] 4).merges = [([97], [98])] ∧
    (getStats (buildWF [[97, 98]])).lookup (([97], [98]) : Tok × Tok) =
      some 1 := by decide

/-- C2 (amended): the merge loop stops early only when the adjacent-pair
table is empty; whenever any adjacent pair exists — even with aggregate
frequency 1 — and merge budget remains, a further merge is recorded, so a
recorded pair may have had aggregate frequency 1 when selected. -/
theorem c2_merge_loop_stop (fuel : Nat) (wf : List (List Tok × Nat))
    (v : List Tok) (ms : List (Tok × Tok)) (hf : 0 < fuel)
    (hp : getStats wf ≠ []) :
    ms.length + 1 ≤ (trainLoop fuel wf v ms).2.length :=
  trainLoop_progress fuel wf v ms hf hp

/-- Witness for the amended C2 on the "ab" corpus. -/
theorem c2_merge_loop_stop_witness :
    ([] : List (Tok × Tok)).length + 1 ≤
      (trainLoop 1 (buildWF [[97, 98]]) [] []).2.length :=
  c2_merge_loop_stop 1 (buildWF [[97, 98]]) [] [] (by decide) (by decide)

/-- C4 counterexample: training on the single text whose four characters
spell the end-of-word marker, with target size 9, records four merges but
grows the vocabulary by only three entries — one merge's concatenation
collides with the marker token already present — so the claimed equality
base + merges = vocabulary size fails (5 + 4 is not 8). -/
theorem c4_counterexample :
    (baseVocab (buildWF [[60, 47, 119, 62]])).length = 5 ∧
    (train [[60, 47, 119, 62]] 9).merges.length = 4 ∧
    (train [[60, 47, 119, 62]] 9).vocab.length = 8 ∧
    (train [[60, 47, 119, 62]] 9).vocab.length ≠
      (baseVocab (buildWF [[60, 47, 119, 62]])).length +
        (train [[60, 47, 119, 62]] 9).merges.length := by decide

/-- C4 (amended): after training on any corpus with any target size, the
vocabulary size is at most the base alphabet size plus the number of
merge-table entries (equality can fail when a merge's concatenation already
exists in the vocabulary), and the number of merge-table entries is at most
the target size minus the base alphabet size. -/
theorem c4_vocab_growth_bounds (texts : List (List Nat)) (targetSize : Nat) :
    (train texts targetSize).vocab.length ≤
      (baseVocab (buildWF texts)).length +
        (train texts targetSize).merges.length ∧
    (train texts targetSize).merges.length ≤
      targetSize - (baseVocab (buildWF texts)).length := by
  obtain ⟨h1, h2⟩ := trainLoop_bounds
    (targetSize - (baseVocab (buildWF texts)).length)
    (buildWF texts) (baseVocab (buildWF texts)) []
  constructor
  · have h := h1
    simp only [List.length_nil, Nat.add_zero] at h
    exact h
  · have h := h2
    simp only [List.length_nil, Nat.zero_add] at h
    exact h

/-- C8: decode silently skips every id that has no vocabulary entry — its
output is unchanged when the out-of-range ids are filtered away, with no
error reported — and decoding a single unknown id yields the empty
string. -/
theorem c8_decode_skips_unknown (s : TokState) (ids : List Nat) (i : Nat)
    (h : s.vocab.length ≤ i) :
    decode s ids =
      decode s (ids.filter (fun j => decide (j < s.vocab.length))) ∧
    decode s [i] = [] := by
  have htoks : ∀ l : List Nat,
      l.filterMap (fun tid => s.vocab.get? tid) =
      (l.filter (fun j => decide (j < s.vocab.length))).filterMap
        (fun tid => s.vocab.get? tid) := by
    intro l
    induction l with
    | nil => rfl
    | cons j t ih =>
      rw [List.filter_cons]
      by_cases hj : j < s.vocab.length
      · rw [if_pos (by simpa using hj)]
        rw [List.filterMap_cons, List.filterMap_cons, ih]
      · rw [if_neg (by simpa using hj)]
        rw [List.filterMap_cons,
          List.get?_eq_none.mpr (Nat.le_of_not_lt hj)]
        simpa using ih
  constructor
  · rw [decode, decode, htoks ids]
  · rw [decode,
      show List.filterMap (fun tid => s.vocab.get? tid) [i] = [] from by
        rw [List.filterMap_cons, List.get?_eq_none.mpr h]
        rfl]
    rfl

/-- Witness for C8 at a concrete state and id list. -/
theorem c8_decode_skips_unknown_witness :
    decode ⟨[[97]], []⟩ [0, 5] =
      decode ⟨[[97]], []⟩ (([0, 5] : List Nat).filter
        (fun j => decide (j < (TokState.mk [[97]] []).vocab.length))) ∧
    decode ⟨[[97]], []⟩ [5] = [] :=
  c8_decode_skips_unknown ⟨[[97]], []⟩ [0, 5] 5 (by decide)

/-- C5 counterexample: with a vocabulary whose only token is the single
symbol of code point 0 — a symbol outside the byte codec's domain — decode
of the id list containing id 0 returns that raw symbol string, not a
replacement-character substitution. -/
theorem c5_counterexample :
    inByteDomain 0 = false ∧
    decode ⟨[([0] : Tok)], []⟩ [0] = [0] ∧
    decode ⟨[([0] : Tok)], []⟩ [0] ≠ [65533] := by decide

/-- C5 (amended): when the marker-stripped concatenation of the decoded
tokens contains a symbol outside the byte codec's domain, decode returns
that concatenated symbol string unchanged as a raw fallback rather than
failing; it does not substitute a replacement character for the offending
span (replacement characters arise only in the UTF-8 stage, which runs
only when every symbol is in the codec's domain). -/
theorem c5_decode_fallback (s : TokState) (ids : List Nat)
    (h : (stripM ((ids.filterMap (fun tid => s.vocab.get? tid)).flatten)).all
      inByteDomain = false) :
    decode s ids =
      stripM ((ids.filterMap (fun tid => s.vocab.get? tid)).flatten) := by
  rw [decode, if_neg (by rw [h]; exact Bool.false_ne_true)]

/-- Witness for the amended C5 at a concrete state. -/
theorem c5_decode_fallback_witness :
    decode ⟨[([0] : Tok)], []⟩ [0] =
      stripM ((([0] : List Nat).filterMap
        (fun tid => (TokState.mk [([0] : Tok)] []).vocab.get? tid)).flatten) :=
  c5_decode_fallback ⟨[([0] : Tok)], []⟩ [0] (by decide)

/-- C9: the compression ratio satisfies ratio times total token count =
total UTF-8 byte count whenever the token count is nonzero, and the ratio
is 0 when the total token count is 0, in particular on the empty text
list. -/
theorem c9_compression_ratio (s : TokState) (texts : List (List Nat)) :
    ((texts.map (fun t => (encode s t).length)).sum = 0 →
      compressionRatioCalc s texts = 0) ∧
    ((texts.map (fun t => (encode s t).length)).sum ≠ 0 →
      compressionRatioCalc s texts *
        (((texts.map (fun t => (encode s t).length)).sum : Nat) : ℚ) =
        (((texts.map (fun t => (utf8Encode t).length)).sum : Nat) : ℚ)) ∧
    compressionRatioCalc s [] = 0 := by
  refine ⟨?_, ?_, ?_⟩
  · intro h
    rw [compressionRatioCalc, if_pos h]
  · intro h
    rw [compressionRatioCalc, if_neg h]
    exact div_mul_cancel₀ _ (Nat.cast_ne_zero.mpr h)
  · rfl

/-- Witness for C9 at a trained state and a one-text list. -/
theorem c9_compression_ratio_witness :
    compressionRatioCalc (train [[97, 98]] 4) [[97]] *
      ((([[97]] : List (List Nat)).map
        (fun t => (encode (train [[97, 98]] 4) t).length)).sum : ℚ) =
      ((([[97]] : List (List Nat)).map
        (fun t => (utf8Encode t).length)).sum : ℚ) :=
  (c9_compression_ratio (train [[97, 98]] 4) [[97]]).2.1 (by decide)

/-- C10: every id emitted by encode is the id of some vocabulary token —
the index of an existing entry in the vocabulary list — and encoding the
empty string yields the empty id list. -/
theorem c10_encode_ids_valid (s : TokState) (text : List Nat) (i : Nat)
    (h : i ∈ encode s text) :
    (∃ t, s.vocab.get? i = some t) ∧ encode s ([] : List Nat) = [] := by
  constructor
  · rw [encode] at h
    rcases List.mem_flatten.mp h with ⟨l, hl, hil⟩
    rcases List.mem_map.mp hl with ⟨w, hw, rfl⟩
    rcases List.mem_flatten.mp hil with ⟨l2, hl2, hil2⟩
    rcases List.mem_map.mp hl2 with ⟨t, ht, rfl⟩
    exact ⟨_, List.get?_eq_get (tokenIds_lt hil2)⟩
  · rfl

/-- Witness for C10 at a trained state and an id of its output. -/
theorem c10_encode_ids_valid_witness :
    (∃ t, (train [[97, 98]] 4).vocab.get? 3 = some t) ∧
    encode (train [[97, 98]] 4) ([] : List Nat) = [] :=
  c10_encode_ids_valid (train [[97, 98]] 4) [97, 98] 3 (by decide)

/-- C1 counterexample: the text made of the four characters that spell the
end-of-word marker consists of bytes that all map to base-alphabet symbols
of the tokenizer trained on that very text, yet decoding its encoding
yields the empty string instead of the text, because decode strips the
text's own marker-spelling symbols. -/
theorem c1_counterexample :
    ((byteSymbols [60, 47, 119, 62]).all
      (fun c => decide (([c] : Tok) ∈ (train [[60, 47, 119, 62]] 5).vocab))
      = true) ∧
    decode (train [[60, 47, 119, 62]] 5)
      (encode (train [[60, 47, 119, 62]] 5) [60, 47, 119, 62]) = [] ∧
    ([] : List Nat) ≠ [60, 47, 119, 62] := by decide

/-- Witness for the amended C1 on a trained state and a marker-free text. -/
theorem c1_round_trip_amended_witness :
    decode (train [[97, 98]] 3) (encode (train [[97, 98]] 3) [97, 98]) =
      [97, 98] :=
  c1_round_trip_amended (train [[97, 98]] 3) [97, 98] (by decide) (by decide)
    (by decide) (by decide) (by decide)

end BPE
